import Mathlib

/-!
Shallow embedding of the `rustism` core libraries
(`libs/natural-selection` and `libs/neural-network`).

Modelling conventions:
* Rust `f32` values are modelled as exact rationals (`ℚ`); all claims here
  are either structural or about exactly representable values.
* Rust `u32` is modelled as `ℕ` with explicit wrapping `% 2 ^ 32` where the
  source performs `u32` arithmetic, and with the saturating semantics of
  Rust `as u32` float-to-integer casts where the source casts.
* Rust `String` values are modelled as `List Char` (Rust chars compare by
  code point, modelled via `Char.toNat`).
* Panics (`assert!`, `expect`, `panic!`) are modelled as `Except` errors.
-/

namespace Rustism

instance instDecidableEqExcept {ε α : Type} [DecidableEq ε] [DecidableEq α] :
    DecidableEq (Except ε α) := fun a b =>
  match a, b with
  | .error e, .error f =>
    if h : e = f then isTrue (congrArg Except.error h)
    else isFalse (fun hh => h (by injection hh))
  | .error _, .ok _ => isFalse (fun hh => Except.noConfusion hh)
  | .ok _, .error _ => isFalse (fun hh => Except.noConfusion hh)
  | .ok x, .ok y =>
    if h : x = y then isTrue (congrArg Except.ok h)
    else isFalse (fun hh => h (by injection hh))

/-- The modulus of Rust `u32` arithmetic, `2 ^ 32`. -/
def U32 : ℕ := 2 ^ 32

/-- Error raised by `Chromosome::string_to_value` on a character outside
`[a-zA-Z]` (the `panic!("unexpected character encountered!")`). -/
inductive DnaError
  | invalidDna
deriving DecidableEq, Repr

/-- Rust `as u32` cast from `f32`: truncates toward zero and saturates to
`[0, 2^32 - 1]` (negative values go to `0`). For nonnegative values
truncation toward zero is `floor`. -/
def u32cast (q : ℚ) : ℕ :=
  if q < 0 then 0 else min (U32 - 1) ⌊q⌋.toNat

/-- The digit character pushed by `Chromosome::value_to_string`:
`(m as u8 + b'a')` for `m < 26`, else `(m as u8 - 26 + b'A')`
(`'a' = 97`, `'A' = 65`). -/
def digitChar (m : ℕ) : Char :=
  if m < 26 then Char.ofNat (97 + m) else Char.ofNat (65 + (m - 26))

/-- The loop of `Chromosome::value_to_string`, producing the digit characters
in push order (least significant first); the loop body runs at least once
(do-while shape: it stops when `x / 52` reaches `0`). Structured with an
explicit fuel argument (the recursion consumes `x / 52 < x`, so any
`fuel ≥ x` suffices; `value_to_string_revFuel_eq` below recovers the plain
recursion equation). -/
def value_to_string_revFuel : ℕ → ℕ → List Char
  | 0, x => [digitChar (x % 52)]
  | fuel + 1, x =>
    if x / 52 = 0 then [digitChar (x % 52)]
    else digitChar (x % 52) :: value_to_string_revFuel fuel (x / 52)

theorem value_to_string_revFuel_congr :
    ∀ f₁ f₂ x : ℕ, x ≤ f₁ → x ≤ f₂ →
      value_to_string_revFuel f₁ x = value_to_string_revFuel f₂ x := by
  intro f₁
  induction f₁ with
  | zero =>
    intro f₂ x h₁ _
    have hx : x = 0 := Nat.le_zero.mp h₁
    subst hx
    cases f₂ <;> simp [value_to_string_revFuel]
  | succ f ih =>
    intro f₂ x h₁ h₂
    cases f₂ with
    | zero =>
      have hx : x = 0 := Nat.le_zero.mp h₂
      subst hx
      simp [value_to_string_revFuel]
    | succ g =>
      simp only [value_to_string_revFuel]
      by_cases hq : x / 52 = 0
      · simp [hq]
      · have hxpos : 0 < x := Nat.pos_of_ne_zero (fun hx => hq (by simp [hx]))
        have hlt : x / 52 < x := Nat.div_lt_self hxpos (by norm_num)
        simp only [hq, if_false]
        rw [ih g (x / 52) (by omega) (by omega)]

/-- The digit list of `value_to_string`, least significant first. -/
def value_to_string_rev (x : ℕ) : List Char :=
  value_to_string_revFuel x x

theorem value_to_string_rev_eq (x : ℕ) :
    value_to_string_rev x =
      if x / 52 = 0 then [digitChar (x % 52)]
      else digitChar (x % 52) :: value_to_string_rev (x / 52) := by
  by_cases hq : x / 52 = 0
  · rcases x with _ | f <;> simp [value_to_string_rev, value_to_string_revFuel, hq]
  · have hxpos : 0 < x := Nat.pos_of_ne_zero (fun hx => hq (by simp [hx]))
    have hlt : x / 52 < x := Nat.div_lt_self hxpos (by norm_num)
    rcases x with _ | f
    · exact absurd rfl hq
    · simp only [value_to_string_rev, value_to_string_revFuel, hq, if_false]
      have hle : (f + 1) / 52 ≤ f := Nat.lt_succ_iff.mp hlt
      rw [value_to_string_revFuel_congr f ((f + 1) / 52) ((f + 1) / 52) hle le_rfl]

/-- Embeds `Chromosome::value_to_string`: base-52 rendering, most significant digit
first (`result.into_iter().rev().collect()`). -/
def value_to_string (x : ℕ) : List Char :=
  (value_to_string_rev x).reverse

/-- Embeds `Chromosome::string_to_value` with its `u32` accumulator (`v *= 52;` then
`v += …`, both wrapping mod `2^32`); checks `'A' ≤ c ≤ 'Z'` first, then
`'a' ≤ c ≤ 'z'`, and panics otherwise. -/
def string_to_value : List Char → ℕ → Except DnaError ℕ
  | [], v => .ok v
  | c :: s, v =>
    let v52 := v * 52 % U32
    if 65 ≤ c.toNat ∧ c.toNat ≤ 90 then
      string_to_value s ((v52 + (26 + (c.toNat - 65))) % U32)
    else if 97 ≤ c.toNat ∧ c.toNat ≤ 122 then
      string_to_value s ((v52 + (c.toNat - 97)) % U32)
    else .error .invalidDna

/-- The per-gene integer computed inside `Chromosome::to_dna`:
`((f + 1000.0) * 1000.0) as u32`. -/
def encodeGene (g : ℚ) : ℕ :=
  u32cast ((g + 1000) * 1000)

/-- Embeds `Chromosome::to_dna`: fold appending each gene token followed by `'-'`,
then `result.pop()` removes the trailing dash (`List.dropLast`). -/
def to_dna (genes : List ℚ) : List Char :=
  (genes.foldl (fun result g => result ++ value_to_string (encodeGene g) ++ ['-']) []).dropLast

/-- Rust `str::split('-')`: splitting the empty string yields one empty
piece; every dash starts a new piece. -/
def splitDash : List Char → List (List Char)
  | [] => [[]]
  | c :: rest =>
    let r := splitDash rest
    if c = '-' then [] :: r else (c :: r.headI) :: r.tail

/-- The per-token map of `Chromosome::from_dna`:
`(string_to_value(s) as f32 / 1000.0) - 1000.0`. -/
def decodeToken (s : List Char) : Except DnaError ℚ :=
  (string_to_value s 0).map (fun v => (v : ℚ) / 1000 - 1000)

/-- Embeds `Chromosome::from_dna`: split on `'-'` and decode each token. -/
def from_dna (dna : List Char) : Except DnaError (List ℚ) :=
  (splitDash dna).mapM decodeToken

/-- Joining tokens with `'-'` (the spec's "join gene tokens with `-`"). -/
def joinDash : List (List Char) → List Char
  | [] => []
  | [t] => t
  | t :: t₂ :: ts => t ++ '-' :: joinDash (t₂ :: ts)

theorem foldl_append_token (h : ℚ → List Char) :
    ∀ (l : List ℚ) (init : List Char),
      l.foldl (fun acc g => acc ++ h g ++ ['-']) init =
        init ++ (l.map (fun g => h g ++ ['-'])).flatten := by
  intro l
  induction l with
  | nil => intro init; simp
  | cons g l ih =>
    intro init
    simp only [List.foldl_cons, List.map_cons, List.flatten_cons]
    rw [ih]
    simp

theorem dropLast_append_ne (a : List Char) :
    ∀ b : List Char, b ≠ [] → (a ++ b).dropLast = a ++ b.dropLast := by
  intro b hb
  rcases b with _ | ⟨x, b⟩
  · exact absurd rfl hb
  · exact List.dropLast_append_cons

theorem dropLast_join_tokens :
    ∀ ts : List (List Char),
      ((ts.map (fun t => t ++ ['-'])).flatten).dropLast = joinDash ts := by
  intro ts
  induction ts with
  | nil => simp [joinDash]
  | cons t ts ih =>
    rcases ts with _ | ⟨t₂, ts⟩
    · simp [joinDash]
    · have hne : (((t₂ :: ts).map (fun t => t ++ ['-'])).flatten : List Char) ≠ [] := by
        simp
      calc ((t :: t₂ :: ts).map (fun t => t ++ ['-'])).flatten.dropLast
          = ((t ++ ['-']) ++ ((t₂ :: ts).map (fun t => t ++ ['-'])).flatten).dropLast := by
            simp only [List.map_cons, List.flatten_cons]
        _ = (t ++ ['-']) ++ (((t₂ :: ts).map (fun t => t ++ ['-'])).flatten).dropLast :=
            dropLast_append_ne _ _ hne
        _ = (t ++ ['-']) ++ joinDash (t₂ :: ts) := by rw [ih]
        _ = t ++ '-' :: joinDash (t₂ :: ts) := by simp
        _ = joinDash (t :: t₂ :: ts) := rfl

/-- The function `to_dna` is exactly "encode each gene to its base-52 token, join with
dashes": the fold-then-pop in the source equals `joinDash` over the tokens. -/
theorem to_dna_eq_joinDash (genes : List ℚ) :
    to_dna genes = joinDash (genes.map (fun g => value_to_string (encodeGene g))) := by
  unfold to_dna
  rw [foldl_append_token]
  simp only [List.nil_append]
  have : genes.map (fun g => value_to_string (encodeGene g) ++ ['-']) =
      (genes.map (fun g => value_to_string (encodeGene g))).map (fun t => t ++ ['-']) := by
    simp
  rw [this, dropLast_join_tokens]

theorem splitDash_no_dash : ∀ t : List Char, '-' ∉ t → splitDash t = [t] := by
  intro t
  induction t with
  | nil => intro _; rfl
  | cons c t ih =>
    intro h
    have hc : c ≠ '-' := fun hc => h (by simp [hc])
    have ht : '-' ∉ t := fun hm => h (by simp [hm])
    have hstep : splitDash (c :: t) =
        (c :: (splitDash t).headI) :: (splitDash t).tail := by
      simp [splitDash, if_neg hc]
    rw [hstep, ih ht]
    simp

theorem splitDash_append_dash :
    ∀ t X : List Char, '-' ∉ t → splitDash (t ++ '-' :: X) = t :: splitDash X := by
  intro t
  induction t with
  | nil => intro X _; simp [splitDash]
  | cons c t ih =>
    intro X h
    have hc : c ≠ '-' := fun hc => h (by simp [hc])
    have ht : '-' ∉ t := fun hm => h (by simp [hm])
    have hstep : splitDash (c :: (t ++ '-' :: X)) =
        (c :: (splitDash (t ++ '-' :: X)).headI) :: (splitDash (t ++ '-' :: X)).tail := by
      simp [splitDash, if_neg hc]
    rw [List.cons_append, hstep, ih X ht]
    simp

theorem splitDash_joinDash :
    ∀ ts : List (List Char), (∀ t ∈ ts, '-' ∉ t) → ts ≠ [] →
      splitDash (joinDash ts) = ts := by
  intro ts
  induction ts with
  | nil => intro _ h; exact absurd rfl h
  | cons t ts ih =>
    intro hd _
    rcases ts with _ | ⟨t₂, ts⟩
    · exact splitDash_no_dash t (hd t (by simp))
    · show splitDash (t ++ '-' :: joinDash (t₂ :: ts)) = _
      rw [splitDash_append_dash t _ (hd t (by simp))]
      rw [ih (fun u hu => hd u (by simp [hu])) (by simp)]

example : value_to_string 0 = ['a'] := by decide
example : value_to_string 1000 = ['t', 'm'] := by decide
example : value_to_string 2000 = ['M', 'y'] := by decide
example : value_to_string 1000500 = ['h', 'g', 'a', 'u'] := by decide
example : string_to_value ['t', 'm'] 0 = .ok 1000 := by decide
example : string_to_value ['M', 'y'] 0 = .ok 2000 := by decide
example : string_to_value ['t', '?'] 0 = .error .invalidDna := by decide

theorem except_bind_ok {ε α β : Type} (a : α) (f : α → Except ε β) :
    (Except.ok a : Except ε α).bind f = f a := rfl

theorem except_bind_error {ε α β : Type} (e : ε) (f : α → Except ε β) :
    (Except.error e : Except ε α).bind f = .error e := rfl

theorem digitChar_toNat :
    ∀ m : ℕ, m < 52 → (digitChar m).toNat = if m < 26 then 97 + m else 39 + m := by
  decide

theorem digitChar_ne_dash : ∀ m : ℕ, m < 52 → digitChar m ≠ '-' := by
  decide

theorem string_to_value_digitChar (m : ℕ) (hm : m < 52) (s : List Char) (v : ℕ) :
    string_to_value (digitChar m :: s) v =
      string_to_value s ((v * 52 % U32 + m) % U32) := by
  have ht := digitChar_toNat m hm
  by_cases h26 : m < 26
  · rw [if_pos h26] at ht
    simp only [string_to_value, ht]
    rw [if_neg (by omega), if_pos (by omega)]
    have harith : 97 + m - 97 = m := by omega
    rw [harith]
  · rw [if_neg h26] at ht
    simp only [string_to_value, ht]
    rw [if_pos (by omega)]
    have harith : 26 + (39 + m - 65) = m := by omega
    rw [harith]

theorem string_to_value_append :
    ∀ (l₁ l₂ : List Char) (v : ℕ),
      string_to_value (l₁ ++ l₂) v =
        (string_to_value l₁ v).bind (fun w => string_to_value l₂ w) := by
  intro l₁
  induction l₁ with
  | nil => intro l₂ v; rfl
  | cons c s ih =>
    intro l₂ v
    simp only [List.cons_append, string_to_value]
    split_ifs <;> simp [ih, except_bind_error]

theorem string_to_value_revFuel :
    ∀ fuel x v : ℕ, x ≤ fuel →
      v * 52 ^ (value_to_string_revFuel fuel x).length + x < U32 →
      string_to_value (value_to_string_revFuel fuel x).reverse v =
        .ok (v * 52 ^ (value_to_string_revFuel fuel x).length + x) := by
  intro fuel
  induction fuel with
  | zero =>
    intro x v hx hlt
    have hx0 : x = 0 := Nat.le_zero.mp hx
    subst hx0
    have hrev : value_to_string_revFuel 0 0 = [digitChar 0] := rfl
    rw [hrev] at hlt ⊢
    simp only [List.length_singleton, pow_one] at hlt ⊢
    simp only [List.reverse_singleton]
    rw [string_to_value_digitChar 0 (by norm_num)]
    show Except.ok ((v * 52 % U32 + 0) % U32) = Except.ok (v * 52 + 0)
    rw [Nat.mod_eq_of_lt (a := v * 52) (by omega), Nat.mod_eq_of_lt (by omega)]
  | succ fuel ih =>
    intro x v hx hlt
    by_cases hq : x / 52 = 0
    · have hx52 : x < 52 := by
        by_contra hge
        have h1 : 0 < x / 52 := Nat.div_pos (by omega) (by norm_num)
        omega
      have hrev : value_to_string_revFuel (fuel + 1) x = [digitChar (x % 52)] := by
        simp [value_to_string_revFuel, hq]
      rw [hrev] at hlt ⊢
      simp only [List.length_singleton, pow_one] at hlt ⊢
      simp only [List.reverse_singleton]
      have hmod : x % 52 = x := Nat.mod_eq_of_lt hx52
      rw [string_to_value_digitChar (x % 52) (Nat.mod_lt x (by norm_num)), hmod]
      show Except.ok ((v * 52 % U32 + x) % U32) = Except.ok (v * 52 + x)
      rw [Nat.mod_eq_of_lt (a := v * 52) (by omega), Nat.mod_eq_of_lt (by omega)]
    · have hxpos : 0 < x := Nat.pos_of_ne_zero (fun h0 => hq (by simp [h0]))
      have hdiv : x / 52 < x := Nat.div_lt_self hxpos (by norm_num)
      have hrec : value_to_string_revFuel (fuel + 1) x =
          digitChar (x % 52) :: value_to_string_revFuel fuel (x / 52) := by
        simp [value_to_string_revFuel, hq]
      rw [hrec] at hlt ⊢
      simp only [List.reverse_cons, List.length_cons] at hlt ⊢
      set L := (value_to_string_revFuel fuel (x / 52)).length with hL
      set A := v * 52 ^ L + x / 52 with hA
      have hsplit : v * 52 ^ (L + 1) + x = A * 52 + x % 52 := by
        have hmod : 52 * (x / 52) + x % 52 = x := Nat.div_add_mod x 52
        calc v * 52 ^ (L + 1) + x
            = v * (52 ^ L * 52) + (52 * (x / 52) + x % 52) := by rw [hmod, pow_succ]
          _ = (v * 52 ^ L + x / 52) * 52 + x % 52 := by ring
          _ = A * 52 + x % 52 := by rw [← hA]
      rw [hsplit] at hlt
      have hAlt : A < U32 := by omega
      rw [string_to_value_append, ih (x / 52) v (by omega) (by rw [← hA]; omega)]
      rw [← hA]
      rw [except_bind_ok]
      rw [string_to_value_digitChar (x % 52) (Nat.mod_lt x (by norm_num))]
      show Except.ok ((A * 52 % U32 + x % 52) % U32) = _
      rw [Nat.mod_eq_of_lt (a := A * 52) (by omega), Nat.mod_eq_of_lt (by omega), hsplit]

theorem string_to_value_value_to_string (x : ℕ) (hx : x < U32) :
    string_to_value (value_to_string x) 0 = .ok x := by
  have h := string_to_value_revFuel x x 0 le_rfl (by simpa using hx)
  simpa using h

theorem dash_not_mem_revFuel : ∀ fuel x : ℕ, '-' ∉ value_to_string_revFuel fuel x := by
  intro fuel
  induction fuel with
  | zero =>
    intro x h
    have hrev : value_to_string_revFuel 0 x = [digitChar (x % 52)] := rfl
    rw [hrev, List.mem_singleton] at h
    exact digitChar_ne_dash (x % 52) (Nat.mod_lt x (by norm_num)) h.symm
  | succ fuel ih =>
    intro x h
    by_cases hq : x / 52 = 0
    · have hrev : value_to_string_revFuel (fuel + 1) x = [digitChar (x % 52)] := by
        simp [value_to_string_revFuel, hq]
      rw [hrev, List.mem_singleton] at h
      exact digitChar_ne_dash (x % 52) (Nat.mod_lt x (by norm_num)) h.symm
    · have hrec : value_to_string_revFuel (fuel + 1) x =
          digitChar (x % 52) :: value_to_string_revFuel fuel (x / 52) := by
        simp [value_to_string_revFuel, hq]
      rw [hrec, List.mem_cons] at h
      rcases h with h | h
      · exact digitChar_ne_dash (x % 52) (Nat.mod_lt x (by norm_num)) h.symm
      · exact ih (x / 52) h

theorem dash_not_mem_value_to_string (x : ℕ) : '-' ∉ value_to_string x := by
  unfold value_to_string value_to_string_rev
  rw [List.mem_reverse]
  exact dash_not_mem_revFuel x x

theorem U32_eq : U32 = 4294967296 := by norm_num [U32]

/-- A gene value the codec can represent exactly: quantized to `0.001`
resolution with its scaled form inside the `u32` range. -/
def Quantized (g : ℚ) : Prop :=
  ∃ k : ℤ, g = (k : ℚ) / 1000 ∧ 0 ≤ k + 1000000 ∧ k + 1000000 ≤ 2 ^ 32 - 1

theorem encodeGene_quantized (k : ℤ) (h0 : 0 ≤ k + 1000000)
    (h1 : k + 1000000 ≤ 2 ^ 32 - 1) :
    encodeGene ((k : ℚ) / 1000) = (k + 1000000).toNat := by
  unfold encodeGene u32cast
  have hval : ((k : ℚ) / 1000 + 1000) * 1000 = ((k + 1000000 : ℤ) : ℚ) := by
    push_cast
    ring
  rw [hval, if_neg (by push_cast; exact_mod_cast not_lt.mpr (by exact_mod_cast h0)),
    Int.floor_intCast]
  rw [min_eq_right]
  rw [U32_eq]
  omega

theorem decodeToken_value (v : ℕ) (hv : v < U32) :
    decodeToken (value_to_string v) = .ok ((v : ℚ) / 1000 - 1000) := by
  unfold decodeToken
  rw [string_to_value_value_to_string v hv]
  rfl

theorem decodeToken_quantized (g : ℚ) (hg : Quantized g) :
    decodeToken (value_to_string (encodeGene g)) = .ok g := by
  obtain ⟨k, hk, h0, h1⟩ := hg
  subst hk
  rw [encodeGene_quantized k h0 h1]
  rw [decodeToken_value _ (by rw [U32_eq]; omega)]
  congr 1
  have h2 : ((k + 1000000).toNat : ℤ) = k + 1000000 := Int.toNat_of_nonneg (by omega)
  have hcast : (((k + 1000000).toNat : ℚ)) = ((k : ℚ) + 1000000) := by
    exact_mod_cast h2
  rw [hcast]
  ring

theorem mapM_decode_tokens (genes : List ℚ) (hq : ∀ g ∈ genes, Quantized g) :
    (genes.map (fun g => value_to_string (encodeGene g))).mapM decodeToken = .ok genes := by
  induction genes with
  | nil => rfl
  | cons g gs ih =>
    simp only [List.map_cons, List.mapM_cons]
    rw [decodeToken_quantized g (hq g (by simp))]
    have := ih (fun u hu => hq u (by simp [hu]))
    rw [show ((gs.map (fun g => value_to_string (encodeGene g))).mapM decodeToken) = .ok gs
      from this]
    rfl

/-- C1: for every nonempty chromosome whose genes are quantized to `0.001`
resolution and representable by the codec, decoding the DNA produced by
encoding recovers a chromosome equal to the original within the `0.001`
quantization tolerance (here in fact exactly, gene by gene). -/
theorem chromosome_roundtrip_quantized (genes : List ℚ) (hne : genes ≠ [])
    (hq : ∀ g ∈ genes, Quantized g) :
    ∃ decoded, from_dna (to_dna genes) = .ok decoded ∧
      List.Forall₂ (fun a b => |a - b| ≤ (1 : ℚ) / 1000) decoded genes := by
  refine ⟨genes, ?_, ?_⟩
  · rw [to_dna_eq_joinDash]
    unfold from_dna
    rw [splitDash_joinDash _ (fun t ht => ?hdash) (by simpa using hne)]
    · exact mapM_decode_tokens genes hq
    · obtain ⟨g, _, hg⟩ := List.mem_map.mp ht
      rw [← hg]
      exact dash_not_mem_value_to_string _
  · rw [List.forall₂_same]
    intro x _
    simp

/-- Witness for C1 at the two-gene chromosome `[0.5, -0.977]`. -/
theorem chromosome_roundtrip_quantized_witness :
    ∃ decoded, from_dna (to_dna [1 / 2, -977 / 1000]) = .ok decoded ∧
      List.Forall₂ (fun a b => |a - b| ≤ (1 : ℚ) / 1000) decoded [1 / 2, -977 / 1000] := by
  apply chromosome_roundtrip_quantized [1 / 2, -977 / 1000] (by simp)
  intro g hg
  rcases List.mem_cons.mp hg with h | h
  · exact ⟨500, by subst h; norm_num⟩
  · rcases List.mem_cons.mp h with h2 | h2
    · exact ⟨-977, by subst h2; norm_num⟩
    · simp at h2

theorem except_bind_eq {ε α β : Type} (a : Except ε α) (f : α → Except ε β) :
    a >>= f = a.bind f := rfl

theorem except_pure_eq {ε α : Type} (a : α) : (pure a : Except ε α) = .ok a := rfl

/-- C9: the DNA codec is not a round trip for the zero-length chromosome:
`to_dna` of an empty chromosome is the empty string, and `from_dna` of the
empty string does not fail but yields the one-gene chromosome `[-1000]`
(the empty token decodes to the value `0`). -/
theorem dna_empty_not_roundtrip :
    to_dna ([] : List ℚ) = [] ∧
    from_dna [] = .ok [(-1000 : ℚ)] ∧
    from_dna (to_dna ([] : List ℚ)) ≠ .ok ([] : List ℚ) := by
  have hdec : decodeToken [] = .ok (-1000 : ℚ) := by
    show Except.ok ((0 : ℚ) / 1000 - 1000) = _
    norm_num
  have hfrom : from_dna [] = .ok [(-1000 : ℚ)] := by
    show ([[]] : List (List Char)).mapM decodeToken = _
    rw [List.mapM_cons, List.mapM_nil, hdec]
    rfl
  refine ⟨rfl, hfrom, ?_⟩
  rw [show to_dna ([] : List ℚ) = [] from rfl, hfrom]
  simp

/-- C10: `to_dna` never fails on out-of-range genes: a gene whose scaled form
`(g + 1000) * 1000` is negative saturates to `0` under the `as u32` cast —
encoding to the token `"a"`, which decodes to exactly `-1000` — and a gene
whose scaled form exceeds the `u32` maximum saturates to `2^32 - 1`. -/
theorem dna_cast_saturation :
    (∀ g : ℚ, (g + 1000) * 1000 < 0 →
      to_dna [g] = ['a'] ∧ from_dna (to_dna [g]) = .ok [(-1000 : ℚ)]) ∧
    (∀ g : ℚ, ((2 ^ 32 - 1 : ℕ) : ℚ) < (g + 1000) * 1000 →
      encodeGene g = 2 ^ 32 - 1) := by
  constructor
  · intro g hneg
    have henc : encodeGene g = 0 := by
      unfold encodeGene u32cast
      rw [if_pos hneg]
    have htok : to_dna [g] = ['a'] := by
      rw [to_dna_eq_joinDash]
      simp only [List.map_cons, List.map_nil]
      rw [henc]
      rfl
    refine ⟨htok, ?_⟩
    rw [htok]
    have hsplit : from_dna ['a'] = .ok [(0 : ℚ) / 1000 - 1000] := rfl
    rw [hsplit]
    norm_num
  · intro g hbig
    have h0 : (0 : ℚ) ≤ (g + 1000) * 1000 :=
      le_trans (by positivity) (le_of_lt hbig)
    have hfloor : (4294967295 : ℤ) ≤ ⌊(g + 1000) * 1000⌋ := by
      rw [Int.le_floor]
      calc ((4294967295 : ℤ) : ℚ) = ((2 ^ 32 - 1 : ℕ) : ℚ) := by norm_num
        _ ≤ (g + 1000) * 1000 := le_of_lt hbig
    unfold encodeGene u32cast
    rw [if_neg (not_lt.mpr h0), U32_eq]
    omega

/-- Witness for C10 at genes `-2000` (scaled form negative) and `10^7`
(scaled form above the `u32` maximum). -/
theorem dna_cast_saturation_witness :
    (to_dna [(-2000 : ℚ)] = ['a'] ∧
      from_dna (to_dna [(-2000 : ℚ)]) = .ok [(-1000 : ℚ)]) ∧
    encodeGene 10000000 = 2 ^ 32 - 1 :=
  ⟨dna_cast_saturation.1 (-2000) (by norm_num),
    dna_cast_saturation.2 10000000 (by norm_num)⟩

/-- The per-gene integer exactly as the spec words it (claim C2):
`v = round((g + 1000.0) * 1000.0)` as an unsigned integer. -/
def u32ofRound (q : ℚ) : ℕ := (round q).toNat

/-- The spec's base-52 expansion, most significant digit first
(`if v < 52 then [v] else expansion (v / 52) ++ [v % 52]`), with an explicit
fuel argument for structural recursion (any `fuel ≥ v` suffices). -/
def base52digitsFuel : ℕ → ℕ → List ℕ
  | 0, v => [v]
  | fuel + 1, v => if v < 52 then [v] else base52digitsFuel fuel (v / 52) ++ [v % 52]

def base52digits (v : ℕ) : List ℕ := base52digitsFuel v v

/-- The spec's rendering of a value in base 52 with alphabet `a`–`z`,`A`–`Z`,
most significant digit first. -/
def base52render (v : ℕ) : List Char := (base52digits v).map digitChar

/-- The whole-chromosome encoder exactly as claim C2 states it: per gene,
round the scaled value, render base 52, join with `'-'`. -/
def to_dna_specRound (genes : List ℚ) : List Char :=
  joinDash (genes.map (fun g => base52render (u32ofRound ((g + 1000) * 1000))))

/-- C2 counterexample: at the gene `0.0005` the encoder of the code computes
`⌊1000000.5⌋ = 1000000` (the Rust `as u32` cast truncates toward zero) while
the claim's `round` gives `1000001`, so the produced DNA differs. -/
theorem to_dna_round_counterexample :
    to_dna [(1 : ℚ) / 2000] ≠ to_dna_specRound [(1 : ℚ) / 2000] := by
  have hval : ((1 : ℚ) / 2000 + 1000) * 1000 = 2000001 / 2 := by norm_num
  have henc : encodeGene ((1 : ℚ) / 2000) = 1000000 := by
    unfold encodeGene u32cast
    rw [hval, if_neg (by norm_num)]
    rw [show ⌊(2000001 : ℚ) / 2⌋ = 1000000 from by norm_num, U32_eq]
    omega
  have hround : u32ofRound (((1 : ℚ) / 2000 + 1000) * 1000) = 1000001 := by
    unfold u32ofRound
    rw [hval, round_eq]
    rw [show (2000001 : ℚ) / 2 + 1 / 2 = 1000001 from by norm_num]
    rw [show ⌊(1000001 : ℚ)⌋ = 1000001 from by norm_num]
    rfl
  have hlhs : to_dna [(1 : ℚ) / 2000] = value_to_string 1000000 := by
    rw [to_dna_eq_joinDash]
    simp only [List.map_cons, List.map_nil, henc]
    rfl
  have hrhs : to_dna_specRound [(1 : ℚ) / 2000] = base52render 1000001 := by
    unfold to_dna_specRound
    simp only [List.map_cons, List.map_nil, hround]
    rfl
  rw [hlhs, hrhs]
  decide

theorem base52digitsFuel_render :
    ∀ fuel x : ℕ, x ≤ fuel →
      (value_to_string_revFuel fuel x).reverse = (base52digitsFuel fuel x).map digitChar := by
  intro fuel
  induction fuel with
  | zero =>
    intro x hx
    have hx0 : x = 0 := Nat.le_zero.mp hx
    subst hx0
    rfl
  | succ fuel ih =>
    intro x hx
    by_cases hv : x < 52
    · have hq : x / 52 = 0 := Nat.div_eq_of_lt hv
      have hrev : value_to_string_revFuel (fuel + 1) x = [digitChar (x % 52)] := by
        simp [value_to_string_revFuel, hq]
      have hbase : base52digitsFuel (fuel + 1) x = [x] := by
        simp [base52digitsFuel, hv]
      rw [hrev, hbase, Nat.mod_eq_of_lt hv]
      rfl
    · have hq : x / 52 ≠ 0 := by
        have : 0 < x / 52 := Nat.div_pos (by omega) (by norm_num)
        omega
      have hxpos : 0 < x := by omega
      have hdiv : x / 52 < x := Nat.div_lt_self hxpos (by norm_num)
      have hrec : value_to_string_revFuel (fuel + 1) x =
          digitChar (x % 52) :: value_to_string_revFuel fuel (x / 52) := by
        simp [value_to_string_revFuel, hq]
      have hbase : base52digitsFuel (fuel + 1) x =
          base52digitsFuel fuel (x / 52) ++ [x % 52] := by
        simp [base52digitsFuel, hv]
      rw [hrec, hbase, List.reverse_cons, ih (x / 52) (by omega), List.map_append]
      rfl

theorem value_to_string_eq_base52render (v : ℕ) :
    value_to_string v = base52render v :=
  base52digitsFuel_render v v le_rfl

/-- C2 amended: for every gene `g` the encoder computes the unsigned integer
`v = trunc((g + 1000.0) * 1000.0)` — truncation toward zero, saturating to
`[0, 2^32 - 1]` (the Rust `as u32` cast), not rounding to nearest — renders
`v` in base 52 with alphabet `a`–`z`,`A`–`Z` most significant digit first,
and joins the per-gene tokens with `'-'`. -/
theorem to_dna_truncating_base52 (genes : List ℚ) :
    to_dna genes =
      joinDash (genes.map (fun g => base52render (u32cast ((g + 1000) * 1000)))) := by
  rw [to_dna_eq_joinDash]
  congr 1
  have hfun : ∀ g : ℚ,
      value_to_string (encodeGene g) = base52render (u32cast ((g + 1000) * 1000)) :=
    fun g => value_to_string_eq_base52render _
  simp only [hfun]

/-- A character inside `[a-zA-Z]` (the spec's valid DNA digit). -/
def isDnaChar (c : Char) : Prop :=
  (97 ≤ c.toNat ∧ c.toNat ≤ 122) ∨ (65 ≤ c.toNat ∧ c.toNat ≤ 90)

instance : DecidablePred isDnaChar := fun c =>
  inferInstanceAs (Decidable ((97 ≤ c.toNat ∧ c.toNat ≤ 122) ∨ (65 ≤ c.toNat ∧ c.toNat ≤ 90)))

/-- The spec's digit value: `a`–`z` ↦ 0–25, `A`–`Z` ↦ 26–51. -/
def digitVal (c : Char) : ℕ :=
  if 97 ≤ c.toNat ∧ c.toNat ≤ 122 then c.toNat - 97 else 26 + (c.toNat - 65)

/-- The per-token decoder exactly as claim C8 states it: guard that every
character is in `[a-zA-Z]`, accumulate `val = val * 52 + digit(c)` left to
right in unbounded integers, recover the gene as `val / 1000.0 - 1000.0`. -/
def decodeToken_specExact (s : List Char) : Except DnaError ℚ :=
  if ∀ c ∈ s, isDnaChar c then
    .ok (((s.foldl (fun w c => w * 52 + digitVal c) 0 : ℕ) : ℚ) / 1000 - 1000)
  else .error .invalidDna

def from_dna_specExact (dna : List Char) : Except DnaError (List ℚ) :=
  (splitDash dna).mapM decodeToken_specExact

/-- Claim C8's decoder amended with the `u32` wrap: the accumulation is
`val = (val * 52 + digit(c)) mod 2^32`. -/
def decodeToken_specWrap (s : List Char) : Except DnaError ℚ :=
  if ∀ c ∈ s, isDnaChar c then
    .ok (((s.foldl (fun w c => (w * 52 % U32 + digitVal c) % U32) 0 : ℕ) : ℚ) / 1000 - 1000)
  else .error .invalidDna

def from_dna_specWrap (dna : List Char) : Except DnaError (List ℚ) :=
  (splitDash dna).mapM decodeToken_specWrap

theorem string_to_value_spec :
    ∀ (s : List Char) (v : ℕ),
      string_to_value s v =
        if ∀ c ∈ s, isDnaChar c then
          .ok (s.foldl (fun w c => (w * 52 % U32 + digitVal c) % U32) v)
        else .error .invalidDna := by
  intro s
  induction s with
  | nil => intro v; simp [string_to_value]
  | cons c s ih =>
    intro v
    by_cases hc : isDnaChar c
    · have hstep : string_to_value (c :: s) v =
          string_to_value s ((v * 52 % U32 + digitVal c) % U32) := by
        rcases hc with ⟨h97, h122⟩ | ⟨h65, h90⟩
        · simp only [string_to_value]
          rw [if_neg (by omega), if_pos (by exact ⟨h97, h122⟩)]
          unfold digitVal
          rw [if_pos ⟨h97, h122⟩]
        · simp only [string_to_value]
          rw [if_pos ⟨h65, h90⟩]
          unfold digitVal
          rw [if_neg (by omega)]
      rw [hstep, ih]
      by_cases hs : ∀ u ∈ s, isDnaChar u
      · rw [if_pos hs, if_pos (fun u hu => by
          rcases List.mem_cons.mp hu with h | h
          · rw [h]; exact hc
          · exact hs u h)]
        rw [List.foldl_cons]
      · rw [if_neg hs,
          if_neg (fun hall => hs (fun u hu => hall u (List.mem_cons_of_mem c hu)))]
    · have herr : string_to_value (c :: s) v = .error .invalidDna := by
        simp only [string_to_value]
        rw [if_neg (fun h => hc (Or.inr h)), if_neg (fun h => hc (Or.inl h))]
      rw [herr, if_neg (fun hall => hc (hall c (by simp)))]

theorem decodeToken_eq_specWrap (s : List Char) :
    decodeToken s = decodeToken_specWrap s := by
  unfold decodeToken decodeToken_specWrap
  rw [string_to_value_spec]
  by_cases hs : ∀ c ∈ s, isDnaChar c
  · rw [if_pos hs, if_pos hs]
    rfl
  · rw [if_neg hs, if_neg hs]
    rfl

/-- C8 amended: decoding splits on `'-'`; for each token it accumulates
`val = (val * 52 + digit(c)) mod 2^32` left to right (the accumulator is a
`u32` and wraps), fails with `InvalidDna` if any character of any token is
outside `[a-zA-Z]`, and recovers the gene as `val / 1000.0 - 1000.0`. -/
theorem from_dna_eq_specWrap (dna : List Char) :
    from_dna dna = from_dna_specWrap dna := by
  unfold from_dna from_dna_specWrap
  congr 1
  funext s
  exact decodeToken_eq_specWrap s

/-- C8 counterexample: the 7-character token `"baaaaaa"` has mathematical
value `52^6 = 19770609664 ≥ 2^32`; the `u32` accumulator wraps to
`2590740480`, so the decoded gene is not the claim's `val/1000 - 1000` with
the unbounded accumulation. -/
theorem from_dna_overflow_counterexample :
    from_dna ['b', 'a', 'a', 'a', 'a', 'a', 'a'] ≠
      from_dna_specExact ['b', 'a', 'a', 'a', 'a', 'a', 'a'] := by
  have h1 : string_to_value ['b', 'a', 'a', 'a', 'a', 'a', 'a'] 0 = .ok 2590740480 := by
    decide
  have h2 : (['b', 'a', 'a', 'a', 'a', 'a', 'a'].foldl
      (fun w c => w * 52 + digitVal c) 0) = 19770609664 := by decide
  have hsplit : splitDash ['b', 'a', 'a', 'a', 'a', 'a', 'a'] =
      [['b', 'a', 'a', 'a', 'a', 'a', 'a']] := by decide
  have hall : ∀ c ∈ ['b', 'a', 'a', 'a', 'a', 'a', 'a'], isDnaChar c := by decide
  have hlhs : from_dna ['b', 'a', 'a', 'a', 'a', 'a', 'a'] =
      .ok [((2590740480 : ℕ) : ℚ) / 1000 - 1000] := by
    unfold from_dna
    rw [hsplit, List.mapM_cons, List.mapM_nil]
    unfold decodeToken
    rw [h1]
    rfl
  have hrhs : from_dna_specExact ['b', 'a', 'a', 'a', 'a', 'a', 'a'] =
      .ok [((19770609664 : ℕ) : ℚ) / 1000 - 1000] := by
    unfold from_dna_specExact
    rw [hsplit, List.mapM_cons, List.mapM_nil]
    unfold decodeToken_specExact
    rw [if_pos hall, h2]
    rfl
  rw [hlhs, hrhs]
  intro heq
  have hg : ((2590740480 : ℕ) : ℚ) / 1000 - 1000 =
      ((19770609664 : ℕ) : ℚ) / 1000 - 1000 := by
    injection heq with h4
    exact (List.cons.inj h4).1
  norm_num at hg

/-! ## Neural network (`libs/neural-network/src/lib.rs`)

Panics are modelled as `Except` errors: `expect("out of data")` in
`Neuron::from_data` is `dataExhausted`; the `panic!("something is wrong...")`
on leftover values in `Network::from_data` is `leftoverData`; the
`assert_eq!` on input arity in `Neuron::propagate` is `arityMismatch`; the
`assert!(layers.len() > 1)` is `invalidTopology`. -/

inductive NetError
  | dataExhausted
  | leftoverData
  | arityMismatch
  | invalidTopology
deriving DecidableEq, Repr

structure Neuron where
  bias : ℚ
  weights : List ℚ
deriving DecidableEq, Repr

structure Layer where
  neurons : List Neuron
deriving DecidableEq, Repr

structure Network where
  layers : List Layer
deriving DecidableEq, Repr

/-- Drawing exactly `n` values from the data iterator
(`(0..output_size).map(|_| data.next().expect("out of data"))`), returning
them with the remaining data. -/
def takeExact : ℕ → List ℚ → Except NetError (List ℚ × List ℚ)
  | 0, d => .ok ([], d)
  | _ + 1, [] => .error .dataExhausted
  | n + 1, x :: d => (takeExact n d).map (fun p => (x :: p.1, p.2))

/-- Embeds `Neuron::from_data`: one bias then `output_size` weights, in order. -/
def Neuron.from_data (output_size : ℕ) (data : List ℚ) :
    Except NetError (Neuron × List ℚ) :=
  match data with
  | [] => .error .dataExhausted
  | b :: rest => (takeExact output_size rest).map (fun p => (⟨b, p.1⟩, p.2))

/-- The neuron-collect loop of `Layer::from_data`:
`(0..output_neurons).map(|_| Neuron::from_data(input_neurons, data))`. -/
def Layer.from_data_neurons (input_neurons : ℕ) :
    ℕ → List ℚ → Except NetError (List Neuron × List ℚ)
  | 0, d => .ok ([], d)
  | n + 1, d =>
    (Neuron.from_data input_neurons d).bind (fun p =>
      (Layer.from_data_neurons input_neurons n p.2).bind (fun q =>
        .ok (p.1 :: q.1, q.2)))

def Layer.from_data (input_neurons output_neurons : ℕ) (data : List ℚ) :
    Except NetError (Layer × List ℚ) :=
  (Layer.from_data_neurons input_neurons output_neurons data).map
    (fun p => (⟨p.1⟩, p.2))

/-- Embeds `slice::windows(2)` over the topology, as consecutive pairs. -/
def windows2 : List ℕ → List (ℕ × ℕ)
  | a :: b :: rest => (a, b) :: windows2 (b :: rest)
  | _ => []

/-- The layer-collect loop of `Network::from_data` over the topology
windows. -/
def hydrateLayers : List (ℕ × ℕ) → List ℚ → Except NetError (List Layer × List ℚ)
  | [], d => .ok ([], d)
  | w :: ws, d =>
    (Layer.from_data w.1 w.2 d).bind (fun p =>
      (hydrateLayers ws p.2).bind (fun q => .ok (p.1 :: q.1, q.2)))

/-- Embeds `Network::from_data`: asserts the topology has more than one entry,
hydrates the layers, then panics if any data values are left over. -/
def Network.from_data (topology : List ℕ) (data : List ℚ) : Except NetError Network :=
  if topology.length ≤ 1 then .error .invalidTopology
  else
    (hydrateLayers (windows2 topology) data).bind (fun p =>
      if p.2.isEmpty then .ok ⟨p.1⟩ else .error .leftoverData)

/-- The per-neuron flat data: `once(&neuron.bias).chain(&neuron.weights)`. -/
def Neuron.data (n : Neuron) : List ℚ := n.bias :: n.weights

/-- Embeds `Network::data`: layer-major, then neuron-major, then bias-then-weights
(the two `flat_map`s in the source). -/
def Network.data (net : Network) : List ℚ :=
  (((net.layers.map Layer.neurons).flatten).map Neuron.data).flatten

/-- The parameter count of a topology,
`Σ_layers(neurons_i * (inputs_i + 1))`. -/
def paramCount (topology : List ℕ) : ℕ :=
  ((windows2 topology).map (fun w => w.2 * (w.1 + 1))).sum

theorem takeExact_ok :
    ∀ (n : ℕ) (d : List ℚ), n ≤ d.length →
      takeExact n d = .ok (d.take n, d.drop n) := by
  intro n
  induction n with
  | zero => intro d _; simp [takeExact]
  | succ n ih =>
    intro d hd
    rcases d with _ | ⟨x, d⟩
    · simp at hd
    · simp only [takeExact, List.take_succ_cons, List.drop_succ_cons]
      rw [ih d (by simpa using hd)]
      rfl

theorem takeExact_err :
    ∀ (n : ℕ) (d : List ℚ), d.length < n →
      takeExact n d = .error .dataExhausted := by
  intro n
  induction n with
  | zero => intro d hd; simp at hd
  | succ n ih =>
    intro d hd
    rcases d with _ | ⟨x, d⟩
    · rfl
    · simp only [takeExact]
      rw [ih d (by simpa using hd)]
      rfl

theorem neuron_from_data_ok (out : ℕ) (d : List ℚ) (hd : out + 1 ≤ d.length) :
    ∃ nr : Neuron, Neuron.from_data out d = .ok (nr, d.drop (out + 1)) ∧
      nr.data = d.take (out + 1) := by
  rcases d with _ | ⟨b, rest⟩
  · simp at hd
  · refine ⟨⟨b, rest.take out⟩, ?_, ?_⟩
    · show (takeExact out rest).map _ = _
      rw [takeExact_ok out rest (by simpa using hd)]
      rfl
    · simp [Neuron.data]

theorem neuron_from_data_err (out : ℕ) (d : List ℚ) (hd : d.length < out + 1) :
    Neuron.from_data out d = .error .dataExhausted := by
  rcases d with _ | ⟨b, rest⟩
  · rfl
  · show (takeExact out rest).map _ = _
    rw [takeExact_err out rest (by simpa using hd)]
    rfl

theorem layer_from_data_neurons_ok :
    ∀ (n inn : ℕ) (d : List ℚ), n * (inn + 1) ≤ d.length →
      ∃ ns : List Neuron,
        Layer.from_data_neurons inn n d = .ok (ns, d.drop (n * (inn + 1))) ∧
        (ns.map Neuron.data).flatten = d.take (n * (inn + 1)) := by
  intro n
  induction n with
  | zero =>
    intro inn d _
    refine ⟨[], by simp [Layer.from_data_neurons], by simp⟩
  | succ n ih =>
    intro inn d hd
    have hcount : (n + 1) * (inn + 1) = inn + 1 + n * (inn + 1) := by ring
    rw [hcount] at hd ⊢
    have hfirst : inn + 1 ≤ d.length := by omega
    obtain ⟨nr, hnr, hnrdata⟩ := neuron_from_data_ok inn d hfirst
    have hrest : n * (inn + 1) ≤ (d.drop (inn + 1)).length := by
      rw [List.length_drop]
      omega
    obtain ⟨ns, hns, hnsdata⟩ := ih inn (d.drop (inn + 1)) hrest
    refine ⟨nr :: ns, ?_, ?_⟩
    · show (Neuron.from_data inn d).bind _ = _
      rw [hnr, except_bind_ok, hns, except_bind_ok, List.drop_drop]
    · simp only [List.map_cons, List.flatten_cons, hnrdata, hnsdata]
      conv_rhs => rw [List.take_add]

theorem layer_from_data_neurons_err :
    ∀ (n inn : ℕ) (d : List ℚ), d.length < n * (inn + 1) →
      Layer.from_data_neurons inn n d = .error .dataExhausted := by
  intro n
  induction n with
  | zero => intro inn d hd; simp at hd
  | succ n ih =>
    intro inn d hd
    have hcount : (n + 1) * (inn + 1) = (inn + 1) + n * (inn + 1) := by ring
    by_cases hfirst : inn + 1 ≤ d.length
    · obtain ⟨nr, hnr, _⟩ := neuron_from_data_ok inn d hfirst
      show (Neuron.from_data inn d).bind _ = _
      rw [hnr, except_bind_ok]
      rw [ih inn (d.drop (inn + 1)) (by
        rw [List.length_drop]
        rw [hcount] at hd
        omega)]
      rfl
    · show (Neuron.from_data inn d).bind _ = _
      rw [neuron_from_data_err inn d (by omega)]
      rfl

theorem hydrateLayers_ok :
    ∀ (ws : List (ℕ × ℕ)) (d : List ℚ),
      (ws.map (fun w => w.2 * (w.1 + 1))).sum ≤ d.length →
      ∃ ls : List Layer,
        hydrateLayers ws d = .ok (ls, d.drop ((ws.map (fun w => w.2 * (w.1 + 1))).sum)) ∧
        (((ls.map Layer.neurons).flatten).map Neuron.data).flatten =
          d.take ((ws.map (fun w => w.2 * (w.1 + 1))).sum) := by
  intro ws
  induction ws with
  | nil => intro d _; exact ⟨[], rfl, by simp⟩
  | cons w ws ih =>
    intro d hd
    simp only [List.map_cons, List.sum_cons] at hd ⊢
    have hfirst : w.2 * (w.1 + 1) ≤ d.length := by omega
    obtain ⟨ns, hns, hnsdata⟩ := layer_from_data_neurons_ok w.2 w.1 d hfirst
    have hrest : ((ws.map (fun w => w.2 * (w.1 + 1))).sum) ≤
        (d.drop (w.2 * (w.1 + 1))).length := by
      rw [List.length_drop]
      omega
    obtain ⟨ls, hls, hlsdata⟩ := ih (d.drop (w.2 * (w.1 + 1))) hrest
    refine ⟨⟨ns⟩ :: ls, ?_, ?_⟩
    · show (Layer.from_data w.1 w.2 d).bind _ = _
      unfold Layer.from_data
      rw [hns]
      show (hydrateLayers ws (d.drop (w.2 * (w.1 + 1)))).bind _ = _
      rw [hls, except_bind_ok, List.drop_drop]
    · simp only [List.map_cons, List.flatten_cons, List.map_append,
        List.flatten_append, hlsdata]
      rw [hnsdata]
      conv_rhs => rw [List.take_add]

theorem hydrateLayers_err :
    ∀ (ws : List (ℕ × ℕ)) (d : List ℚ),
      d.length < (ws.map (fun w => w.2 * (w.1 + 1))).sum →
      hydrateLayers ws d = .error .dataExhausted := by
  intro ws
  induction ws with
  | nil => intro d hd; simp at hd
  | cons w ws ih =>
    intro d hd
    simp only [List.map_cons, List.sum_cons] at hd
    by_cases hfirst : w.2 * (w.1 + 1) ≤ d.length
    · obtain ⟨ns, hns, _⟩ := layer_from_data_neurons_ok w.2 w.1 d hfirst
      show (Layer.from_data w.1 w.2 d).bind _ = _
      unfold Layer.from_data
      rw [hns]
      show (hydrateLayers ws (d.drop (w.2 * (w.1 + 1)))).bind _ = _
      rw [ih (d.drop (w.2 * (w.1 + 1))) (by
        rw [List.length_drop]
        omega)]
      rfl
    · show (Layer.from_data w.1 w.2 d).bind _ = _
      unfold Layer.from_data
      rw [layer_from_data_neurons_err w.2 w.1 d (by omega)]
      rfl

/-- C3: for every topology of at least two layer widths and every flat real
sequence whose length exactly equals the topology's parameter count
`Σ_layers(neurons_i * (inputs_i + 1))`, `Network::from_data` succeeds and
`Network::data` returns exactly the input sequence. -/
theorem network_data_roundtrip (topology : List ℕ) (data : List ℚ)
    (htop : 2 ≤ topology.length) (hlen : data.length = paramCount topology) :
    ∃ net : Network, Network.from_data topology data = .ok net ∧
      net.data = data := by
  have hsum : ((windows2 topology).map (fun w => w.2 * (w.1 + 1))).sum = data.length := by
    unfold paramCount at hlen
    omega
  obtain ⟨ls, hls, hlsdata⟩ := hydrateLayers_ok (windows2 topology) data (by omega)
  refine ⟨⟨ls⟩, ?_, ?_⟩
  · unfold Network.from_data
    rw [if_neg (by omega), hls, except_bind_ok]
    have hdropnil :
        data.drop (((windows2 topology).map (fun w => w.2 * (w.1 + 1))).sum) = [] := by
      rw [hsum, List.drop_length]
    rw [hdropnil]
    rfl
  · show (((ls.map Layer.neurons).flatten).map Neuron.data).flatten = data
    rw [hlsdata, hsum, List.take_length]

/-- Witness for C3 at the topology `[2, 1]` (parameter count 3) and the
sequence `[1, 2, 3]`. -/
theorem network_data_roundtrip_witness :
    ∃ net : Network, Network.from_data [2, 1] [1, 2, 3] = .ok net ∧
      net.data = [1, 2, 3] :=
  network_data_roundtrip [2, 1] [1, 2, 3] (by norm_num) (by rfl)

/-- C6: given a valid topology, `Network::from_data` fails with the
data-exhausted error whenever the flat sequence is shorter than the
parameter count, fails (leftover-data panic) whenever values remain after
full hydration, and succeeds on an exactly-matching-length sequence. -/
theorem network_from_data_errors (topology : List ℕ) (data : List ℚ)
    (htop : 2 ≤ topology.length) :
    (data.length < paramCount topology →
      Network.from_data topology data = .error .dataExhausted) ∧
    (paramCount topology < data.length →
      Network.from_data topology data = .error .leftoverData) ∧
    (data.length = paramCount topology →
      ∃ net, Network.from_data topology data = .ok net) := by
  refine ⟨?_, ?_, ?_⟩
  · intro hshort
    unfold paramCount at hshort
    unfold Network.from_data
    rw [if_neg (by omega), hydrateLayers_err _ _ (by omega)]
    rfl
  · intro hlong
    unfold paramCount at hlong
    obtain ⟨ls, hls, _⟩ := hydrateLayers_ok (windows2 topology) data (by omega)
    unfold Network.from_data
    rw [if_neg (by omega), hls, except_bind_ok]
    rcases hdrop : data.drop (((windows2 topology).map (fun w => w.2 * (w.1 + 1))).sum)
      with _ | ⟨x, xs⟩
    · exfalso
      have hl := congrArg List.length hdrop
      rw [List.length_drop] at hl
      simp at hl
      omega
    · rw [hdrop]
      rfl
  · intro heq
    obtain ⟨net, hnet, _⟩ := network_data_roundtrip topology data htop heq
    exact ⟨net, hnet⟩

/-- Witness for C6 at the topology `[2, 1]` (parameter count 3) with a
2-element, a 4-element, and a 3-element sequence. -/
theorem network_from_data_errors_witness :
    Network.from_data [2, 1] [1, 2] = .error .dataExhausted ∧
    Network.from_data [2, 1] [1, 2, 3, 4] = .error .leftoverData ∧
    ∃ net, Network.from_data [2, 1] [1, 2, 3] = .ok net :=
  ⟨(network_from_data_errors [2, 1] [1, 2] (by norm_num)).1 (by decide),
    (network_from_data_errors [2, 1] [1, 2, 3, 4] (by norm_num)).2.1 (by decide),
    (network_from_data_errors [2, 1] [1, 2, 3] (by norm_num)).2.2 (by decide)⟩

/-- Embeds `Neuron::propagate`: asserts the input arity matches the weight count,
then computes `max(bias + Σ inputs[i] * weights[i], 0)` (ReLU), with the
weighted sum formed by `zip`-then-multiply-then-sum as in the source. -/
def Neuron.propagate (n : Neuron) (inputs : List ℚ) : Except NetError ℚ :=
  if inputs.length ≠ n.weights.length then .error .arityMismatch
  else .ok (max (n.bias + ((inputs.zip n.weights).map (fun p => p.1 * p.2)).sum) 0)

theorem zip_mul_sum :
    ∀ l₁ l₂ : List ℚ, l₁.length = l₂.length →
      ((l₁.zip l₂).map (fun p => p.1 * p.2)).sum =
        ∑ i ∈ Finset.range l₂.length, l₁.getD i 0 * l₂.getD i 0 := by
  intro l₁
  induction l₁ with
  | nil =>
    intro l₂ h
    rcases l₂ with _ | ⟨b, l₂⟩
    · simp
    · simp at h
  | cons a l₁ ih =>
    intro l₂ h
    rcases l₂ with _ | ⟨b, l₂⟩
    · simp at h
    · simp only [List.zip_cons_cons, List.map_cons, List.sum_cons, List.length_cons]
      rw [Finset.sum_range_succ']
      simp only [List.getD_cons_succ, List.getD_cons_zero]
      rw [ih l₂ (by simpa using h)]
      ring

/-- C7: for every neuron and input vector of matching arity,
`Neuron.propagate` returns `max(0, bias + Σ inputs[i] * weights[i])` (ReLU
of bias plus dot product); on mismatched arity it fails with the
arity-mismatch error. -/
theorem neuron_propagate_spec (n : Neuron) (inputs : List ℚ) :
    (inputs.length = n.weights.length →
      n.propagate inputs = .ok (max 0 (n.bias +
        ∑ i ∈ Finset.range n.weights.length,
          inputs.getD i 0 * n.weights.getD i 0))) ∧
    (inputs.length ≠ n.weights.length →
      n.propagate inputs = .error .arityMismatch) := by
  constructor
  · intro hlen
    unfold Neuron.propagate
    rw [if_neg (fun hcon => hcon hlen)]
    rw [zip_mul_sum inputs n.weights hlen, max_comm]
  · intro hne
    unfold Neuron.propagate
    rw [if_pos hne]

/-- Witness for C7 at the neuron `bias 1, weights [2, 3]` with inputs
`[4, 5]` (matching arity) and `[]` (mismatched arity). -/
theorem neuron_propagate_spec_witness :
    Neuron.propagate ⟨1, [2, 3]⟩ [4, 5] = .ok (max 0 (1 +
      ∑ i ∈ Finset.range ([2, 3] : List ℚ).length,
        ([4, 5] : List ℚ).getD i 0 * ([2, 3] : List ℚ).getD i 0)) ∧
    Neuron.propagate ⟨1, [2, 3]⟩ [] = .error .arityMismatch :=
  ⟨(neuron_propagate_spec ⟨1, [2, 3]⟩ [4, 5]).1 (by norm_num),
    (neuron_propagate_spec ⟨1, [2, 3]⟩ []).2 (by norm_num)⟩

/-! ## Genetic algorithm (`libs/natural-selection/src/lib.rs`)

`GeneticAlgorithm` is generic over its selection method and holds boxed
crossover/mutation strategy objects; the single RNG handle is threaded
through every strategy call in order. Strategies are modelled as
state-passing functions over an abstract RNG state type `R` and an abstract
individual type `I`; the `Individual` capability supplies `chromosome` and
`create`. -/

structure GeneticAlgorithm (R I : Type) where
  selection_method : R → List I → I × R
  crossover_method : R → List ℚ → List ℚ → List ℚ × R
  mutation_method : R → List ℚ → List ℚ × R

/-- One output slot of `evolve`: select parent A, select parent B, crossover,
mutate, rebuild an individual, in the fixed source order. -/
def evolveStep {R I : Type} (ga : GeneticAlgorithm R I) (chromosome : I → List ℚ)
    (create : List ℚ → I) (population : List I) (rng : R) : I × R :=
  let pa := ga.selection_method rng population
  let pb := ga.selection_method pa.2 population
  let child := ga.crossover_method pb.2 (chromosome pa.1) (chromosome pb.1)
  let child2 := ga.mutation_method child.2 child.1
  (create child2.1, child2.2)

/-- The `(0..population.len()).map(…).collect()` loop of `evolve`. -/
def evolveLoop {R I : Type} (ga : GeneticAlgorithm R I) (chromosome : I → List ℚ)
    (create : List ℚ → I) (population : List I) : ℕ → R → List I × R
  | 0, rng => ([], rng)
  | n + 1, rng =>
    let p := evolveStep ga chromosome create population rng
    let rest := evolveLoop ga chromosome create population n p.2
    (p.1 :: rest.1, rest.2)

/-- Embeds `GeneticAlgorithm::evolve`: asserts the population is non-empty
(`assert!(!population.is_empty())`, modelled as `none`), then fills
`population.len()` output slots. -/
def GeneticAlgorithm.evolve {R I : Type} (ga : GeneticAlgorithm R I)
    (chromosome : I → List ℚ) (create : List ℚ → I) (rng : R)
    (population : List I) : Option (List I × R) :=
  if population.isEmpty then none
  else some (evolveLoop ga chromosome create population population.length rng)

theorem evolveLoop_length {R I : Type} (ga : GeneticAlgorithm R I)
    (chromosome : I → List ℚ) (create : List ℚ → I) (population : List I) :
    ∀ (n : ℕ) (rng : R),
      (evolveLoop ga chromosome create population n rng).1.length = n := by
  intro n
  induction n with
  | zero => intro rng; rfl
  | succ n ih =>
    intro rng
    simp only [evolveLoop, List.length_cons]
    rw [ih]

/-- C4: for every strategy set and RNG state, `evolve` fails exactly on the
empty population, and for every non-empty population returns a new
population whose length equals the input population's length. -/
theorem evolve_size {R I : Type} (ga : GeneticAlgorithm R I)
    (chromosome : I → List ℚ) (create : List ℚ → I) (rng : R)
    (population : List I) :
    (population = [] → ga.evolve chromosome create rng population = none) ∧
    (population ≠ [] → ∃ out rng2,
      ga.evolve chromosome create rng population = some (out, rng2) ∧
      out.length = population.length) := by
  constructor
  · intro h
    subst h
    rfl
  · intro h
    unfold GeneticAlgorithm.evolve
    rw [if_neg (by simp [h])]
    exact ⟨_, _, rfl, evolveLoop_length ga chromosome create population
      population.length rng⟩

/-- A trivial strategy set over the unit RNG used to witness C4. -/
def trivialGA : GeneticAlgorithm Unit (List ℚ) :=
  ⟨fun r p => (p.headI, r), fun r a _ => (a, r), fun r c => (c, r)⟩

/-- Witness for C4 on the empty population and a two-individual
population. -/
theorem evolve_size_witness :
    GeneticAlgorithm.evolve trivialGA id id () ([] : List (List ℚ)) = none ∧
    ∃ out rng2,
      GeneticAlgorithm.evolve trivialGA id id () [[1], [2]] = some (out, rng2) ∧
      out.length = 2 := by
  constructor
  · exact (evolve_size trivialGA id id () []).1 rfl
  · obtain ⟨out, rng2, hout, hlen⟩ :=
      (evolve_size trivialGA id id () [[1], [2]]).2 (by simp)
    exact ⟨out, rng2, hout, by simpa using hlen⟩

/-! ## Gaussian mutation (`libs/natural-selection/src/mutation/gaussian.rs`)

The `rand` primitives are modelled over an RNG yielding an infinite stream
of uniform `[0,1)` draws (a function `ℕ → ℚ` with a cursor): `gen_bool(p)`
compares the next draw with `p` (rand's Bernoulli sampling; in particular
always false at `p = 0` and always true at `p = 1`), and `gen::<f32>()`
returns the next draw itself — which can be exactly `0`. -/

structure GaussianMutation where
  chance : ℚ
  coefficient : ℚ

structure RngQ where
  stream : ℕ → ℚ
  cursor : ℕ

/-- The stream draws all lie in `[0, 1)`, as rand's uniform samplers
guarantee. -/
def RngQ.valid (r : RngQ) : Prop := ∀ n, 0 ≤ r.stream n ∧ r.stream n < 1

def nextU (r : RngQ) : ℚ × RngQ := (r.stream r.cursor, ⟨r.stream, r.cursor + 1⟩)

def gen_bool (p : ℚ) (r : RngQ) : Bool × RngQ :=
  let u := nextU r
  (decide (u.1 < p), u.2)

/-- Embeds `GaussianMutation::mutate`: per gene, draw the fair sign
(`if rng.gen_bool(0.5) { -1.0 } else { 1.0 }`), draw the Bernoulli chance
decision, and if mutating add `sign * coefficient * rng.gen::<f32>()`. -/
def GaussianMutation.mutate (gm : GaussianMutation) : RngQ → List ℚ → List ℚ × RngQ
  | r, [] => ([], r)
  | r, g :: rest =>
    let sb := gen_bool (1 / 2) r
    let sign : ℚ := if sb.1 then -1 else 1
    let mb := gen_bool gm.chance sb.2
    let step : ℚ × RngQ :=
      if mb.1 then
        let u := nextU mb.2
        (g + sign * gm.coefficient * u.1, u.2)
      else (g, mb.2)
    let rest2 := GaussianMutation.mutate gm step.2 rest
    (step.1 :: rest2.1, rest2.2)

theorem mutate_zero_chance (coeff : ℚ) (s : ℕ → ℚ)
    (hv : ∀ n, 0 ≤ s n ∧ s n < 1) :
    ∀ (child : List ℚ) (k : ℕ),
      ((GaussianMutation.mk 0 coeff).mutate ⟨s, k⟩ child).1 = child := by
  intro child
  induction child with
  | nil => intro k; rfl
  | cons g rest ih =>
    intro k
    have hfalse : decide (s (k + 1) < 0) = false :=
      decide_eq_false (not_lt.mpr (hv (k + 1)).1)
    simp only [GaussianMutation.mutate, gen_bool, nextU, hfalse,
      Bool.false_eq_true, if_false]
    rw [ih (k + 2)]

theorem mutate_one_zero_coeff (s : ℕ → ℚ)
    (hv : ∀ n, 0 ≤ s n ∧ s n < 1) :
    ∀ (child : List ℚ) (k : ℕ),
      ((GaussianMutation.mk 1 0).mutate ⟨s, k⟩ child).1 = child := by
  intro child
  induction child with
  | nil => intro k; rfl
  | cons g rest ih =>
    intro k
    have htrue : decide (s (k + 1) < 1) = true :=
      decide_eq_true (hv (k + 1)).2
    simp only [GaussianMutation.mutate, gen_bool, nextU, htrue, if_true]
    rw [ih (k + 3)]
    simp

theorem mutate_one_cons (coeff : ℚ) (s : ℕ → ℚ)
    (hv : ∀ n, 0 ≤ s n ∧ s n < 1) (g : ℚ) (rest : List ℚ) (k : ℕ) :
    ((GaussianMutation.mk 1 coeff).mutate ⟨s, k⟩ (g :: rest)).1 =
      (g + (if s k < 1 / 2 then -1 else 1) * coeff * s (k + 2)) ::
        ((GaussianMutation.mk 1 coeff).mutate ⟨s, k + 3⟩ rest).1 := by
  have htrue : decide (s (k + 1) < 1) = true :=
    decide_eq_true (hv (k + 1)).2
  simp only [GaussianMutation.mutate, gen_bool, nextU, htrue, if_true,
    decide_eq_true_eq]

theorem mutate_one_changes (coeff : ℚ) (hc : 0 < coeff) (s : ℕ → ℚ)
    (hv : ∀ n, 0 ≤ s n ∧ s n < 1) :
    ∀ (child : List ℚ) (k i : ℕ), i < child.length → s (k + 3 * i + 2) ≠ 0 →
      ((GaussianMutation.mk 1 coeff).mutate ⟨s, k⟩ child).1.getD i 0 ≠
        child.getD i 0 := by
  intro child
  induction child with
  | nil =>
    intro k i hi _
    simp at hi
  | cons g rest ih =>
    intro k i hi hu
    rw [mutate_one_cons coeff s hv g rest k]
    rcases i with _ | j
    · simp only [List.getD_cons_zero]
      have hu2 : s (k + 2) ≠ 0 := by
        have harith : k + 3 * 0 + 2 = k + 2 := by ring
        rw [harith] at hu
        exact hu
      intro heq
      have h0 : (if s k < 1 / 2 then (-1 : ℚ) else 1) * coeff * s (k + 2) = 0 := by
        linarith
      have hsign : (if s k < 1 / 2 then (-1 : ℚ) else 1) ≠ 0 := by
        by_cases hs : s k < 1 / 2
        · rw [if_pos hs]
          norm_num
        · rw [if_neg hs]
          norm_num
      exact (mul_ne_zero (mul_ne_zero hsign (ne_of_gt hc)) hu2) h0
    · simp only [List.getD_cons_succ]
      have harith : k + 3 * (j + 1) + 2 = k + 3 + 3 * j + 2 := by ring
      rw [harith] at hu
      exact ih (k + 3) j (by simpa using hi) hu

/-- C5 counterexample: the all-zero stream is a valid RNG stream (every
draw is `0 ∈ [0,1)`), yet with `chance = 1` and `coefficient = 1` the
uniform magnitude draw is `0`, so the gene `5` is left unchanged even
though the claim says every gene changes. -/
theorem gaussian_mutation_zero_draw_counterexample :
    (RngQ.mk (fun _ => 0) 0).valid ∧
    ((GaussianMutation.mk 1 1).mutate ⟨fun _ => 0, 0⟩ [5]).1 = [5] := by
  constructor
  · intro n
    constructor <;> norm_num
  · have h1 : decide ((0 : ℚ) < 1 / 2) = true := decide_eq_true (by norm_num)
    have h2 : decide ((0 : ℚ) < 1) = true := decide_eq_true (by norm_num)
    simp only [GaussianMutation.mutate, gen_bool, nextU, h1, h2, if_true]
    norm_num

/-- C5 amended: with `chance = 0` mutation leaves every gene unchanged; with
`chance = 1, coefficient = 0` it leaves every gene unchanged; and with
`chance = 1, coefficient > 0` it changes every gene whose uniform magnitude
draw is nonzero (each gene becomes `g + sign * coefficient * u` with
`u ∈ [0,1)`, so a gene is unchanged exactly when its draw `u` is `0`). -/
theorem gaussian_mutation_boundary :
    (∀ (coeff : ℚ) (s : ℕ → ℚ), (RngQ.mk s 0).valid → ∀ child : List ℚ,
      ((GaussianMutation.mk 0 coeff).mutate ⟨s, 0⟩ child).1 = child) ∧
    (∀ s : ℕ → ℚ, (RngQ.mk s 0).valid → ∀ child : List ℚ,
      ((GaussianMutation.mk 1 0).mutate ⟨s, 0⟩ child).1 = child) ∧
    (∀ coeff : ℚ, 0 < coeff → ∀ s : ℕ → ℚ, (RngQ.mk s 0).valid →
      ∀ (child : List ℚ) (i : ℕ), i < child.length → s (3 * i + 2) ≠ 0 →
        ((GaussianMutation.mk 1 coeff).mutate ⟨s, 0⟩ child).1.getD i 0 ≠
          child.getD i 0) := by
  refine ⟨?_, ?_, ?_⟩
  · intro coeff s hv child
    exact mutate_zero_chance coeff s hv child 0
  · intro s hv child
    exact mutate_one_zero_coeff s hv child 0
  · intro coeff hc s hv child i hi hu
    exact mutate_one_changes coeff hc s hv child 0 i hi (by simpa using hu)

/-- Witness for C5 on the constant stream `1/3` with the chromosomes
`[1, 2]` and `[7]`. -/
theorem gaussian_mutation_boundary_witness :
    (((GaussianMutation.mk 0 5).mutate ⟨fun _ => 1 / 3, 0⟩ [1, 2]).1 = [1, 2]) ∧
    (((GaussianMutation.mk 1 0).mutate ⟨fun _ => 1 / 3, 0⟩ [1, 2]).1 = [1, 2]) ∧
    (((GaussianMutation.mk 1 1).mutate ⟨fun _ => 1 / 3, 0⟩ [7]).1.getD 0 0 ≠ (7 : ℚ)) := by
  have hv : (RngQ.mk (fun _ => (1 / 3 : ℚ)) 0).valid := by
    intro n
    constructor <;> norm_num
  refine ⟨gaussian_mutation_boundary.1 5 _ hv [1, 2],
    gaussian_mutation_boundary.2.1 _ hv [1, 2], ?_⟩
  have h := gaussian_mutation_boundary.2.2 1 (by norm_num) (fun _ => 1 / 3) hv
    [7] 0 (by norm_num) (by norm_num)
  simpa using h

end Rustism
